import Mathlib

/-!
Shallow embedding of the snapshot diffing and trend aggregation engine of the
jammed-vessels dashboard (source file `streamlit2.py`).

The raw event table is modelled as a list of rows (`Event`); pandas
operations used by the analytical code are translated one by one:
`sort_values("timestamp")` is modelled by its contract — the output is a
timestamp-nondecreasing permutation of the rows, the relative order of rows
with equal timestamps being unspecified (the default sort kind is not
stable) —,
`groupby("vesselid", as_index=False).tail(1)` keeps the last row of every
vesselid group in frame order, `drop_duplicates("vesselid")` keeps the first
row of every vesselid group, `set(df[col])` becomes a `Finset` of the column
values, and Python floats arising from integer ratios are modelled as `ℚ`.
SQL NULL / missing CSV values in the region column are modelled as `none`
(with ordinary decidable equality standing in for NaN comparison).
Run filenames are modelled as lists of character code points, compared the
way Python compares strings (lexicographically on code points).
-/

/-- One detection record: a row of the event table fetched from the
warehouse (columns `vesselid`, `eez_overall`, `timestamp`, `latitude`,
`longitude` after the renames at lines 97-103 of the source).  A missing
region is `none`; instants are modelled as naturals; the coordinates are
carried along but never inspected by the analytical logic. -/
structure Event where
  vesselid : Nat
  eez_overall : Option String
  timestamp : Nat
  latitude : Option Int
  longitude : Option Int
deriving DecidableEq

/-- Ordering of rows by the `timestamp` column, used by
`df.sort_values("timestamp")`. -/
def tsLe (a b : Event) : Prop := a.timestamp ≤ b.timestamp

instance : DecidableRel tsLe := fun a b => Nat.decLe a.timestamp b.timestamp

instance : IsTotal Event tsLe := ⟨fun a b => Nat.le_total a.timestamp b.timestamp⟩

instance : IsTrans Event tsLe := ⟨fun _ _ _ h₁ h₂ => Nat.le_trans h₁ h₂⟩

/-- Contract of `df.sort_values("timestamp")` under the default sort kind:
the library only guarantees that the output is a permutation of the rows
that is nondecreasing in timestamp; the relative order of rows with equal
timestamps is unspecified, because the default kind is not a stable sort.
Every admissible execution of the source corresponds to one `l` with
`IsSortByTimestamp s l`. -/
def IsSortByTimestamp (s l : List Event) : Prop :=
  s.Perm l ∧ List.Sorted tsLe l

instance (s l : List Event) : Decidable (IsSortByTimestamp s l) :=
  inferInstanceAs (Decidable (s.Perm l ∧ List.Sorted tsLe l))

/-- One admissible output of `df.sort_values("timestamp")` (the one a stable
sort would produce), satisfying `IsSortByTimestamp`.  Which admissible output
the library returns is unspecified on equal timestamps, so this function is
only used where the conclusion is invariant under the choice of sorted
permutation (vesselid sets and row counts). -/
def sortByTimestamp (s : List Event) : List Event := s.insertionSort tsLe

/-- Translation of `df.groupby("vesselid", as_index=False).tail(1)`: for every
vesselid keep only the last row of the frame carrying it, preserving frame
order for the kept rows. -/
def keepLast : List Event → List Event
  | [] => []
  | e :: rest =>
    if rest.any (fun x => x.vesselid == e.vesselid) then keepLast rest
    else e :: keepLast rest

/-- Construction of `current_run` / `previous_run` (source lines 118-123 and
127-132): sort the raw snapshot by timestamp, then keep the last row of every
vesselid group. -/
def reduceSnapshot (s : List Event) : List Event := keepLast (sortByTimestamp s)

/-- Last element of a list satisfying `p`, if any.  Used to state which row
of the input a reduction keeps. -/
def lastWith (p : Event → Bool) : List Event → Option Event
  | [] => none
  | e :: rest =>
    match lastWith p rest with
    | some m => some m
    | none => if p e then some e else none

/-- Translation of `set(df["vesselid"])`: the distinct vessel identifiers of
a frame. -/
def vesselIds (l : List Event) : Finset Nat := (l.map Event.vesselid).toFinset

/-- Translation of `set(df["eez_overall"])` (source lines 145-146): the
distinct region values of a frame, the null region included when present. -/
def regionsOf (l : List Event) : Finset (Option String) :=
  (l.map Event.eez_overall).toFinset

/-- Computation of `new_vessels = current_vessels - previous_vessels`
(source line 143). -/
def newVessels (cur prev : List Event) : Finset Nat :=
  vesselIds cur \ vesselIds prev

/-- Computation of `new_regions = current_regions - previous_regions`
(source line 147). -/
def newRegions (cur prev : List Event) : Finset (Option String) :=
  regionsOf cur \ regionsOf prev

/-- Computation of `resolved_regions = previous_regions - current_regions`
(source line 148). -/
def resolvedRegions (cur prev : List Event) : Finset (Option String) :=
  regionsOf prev \ regionsOf cur

/-- Computation of `increase_pct` (source line 160): relative growth of the
distinct-vessel count, as a percentage. -/
def increasePct (cur prev : List Event) : ℚ :=
  (((vesselIds cur).card : ℚ) - ((vesselIds prev).card : ℚ))
    / ((vesselIds prev).card : ℚ) * 100

/-- Alert values surfaced in the sidebar (source lines 154-162). -/
inductive Alert where
  | regionAppeared (rs : Finset (Option String))
  | regionResolved (rs : Finset (Option String))
  | vesselSurge (pct : ℚ)
deriving DecidableEq

/-- Translation of the Smart Alerts block (source lines 153-162): nothing is
emitted on a first run; otherwise a new-region warning, a resolved-region
message, and the surge alert when the previous vessel set is nonempty, the
vessel count grew, and the growth exceeds 10%. -/
def smartAlerts (firstRun : Bool) (cur prev : List Event) : List Alert :=
  if firstRun then []
  else
    (if newRegions cur prev ≠ ∅ then [Alert.regionAppeared (newRegions cur prev)] else [])
      ++ (if resolvedRegions cur prev ≠ ∅ then
            [Alert.regionResolved (resolvedRegions cur prev)] else [])
      ++ (if vesselIds prev ≠ ∅ ∧ (vesselIds prev).card < (vesselIds cur).card
             ∧ 10 < increasePct cur prev then
            [Alert.vesselSurge (increasePct cur prev)] else [])

/-- Translation of the Show New Jammed Vessels button (source lines 174-182):
on a first run no anomaly table is produced (a baseline notice is shown
instead, modelled as `none`); otherwise the rows of the current reduced run
whose vesselid is new. -/
def showNewVessels (firstRun : Bool) (cur prev : List Event) : Option (List Event) :=
  if firstRun then none
  else some (cur.filter (fun e => decide (e.vesselid ∈ newVessels cur prev)))

/-- Computation of `stability_pct` (source lines 248-249): share of previous
regions still present, or 100 when the previous region set is empty (Python
truthiness of the empty set). -/
def stability (cur prev : List Event) : ℚ :=
  if regionsOf prev ≠ ∅ then
    ((regionsOf cur ∩ regionsOf prev).card : ℚ) / ((regionsOf prev).card : ℚ) * 100
  else 100

/-- Rendering guard of the Detection Stability metric (source lines 247-250):
the metric is shown only when this is not the first run. -/
def stabilityDisplay (firstRun : Bool) (cur prev : List Event) : Option ℚ :=
  if firstRun then none else some (stability cur prev)

/-- Helper for `dropDupVessel` carrying the set of vesselids already seen. -/
def dropDupVesselAux (seen : List Nat) : List Event → List Event
  | [] => []
  | e :: rest =>
    if e.vesselid ∈ seen then dropDupVesselAux seen rest
    else e :: dropDupVesselAux (e.vesselid :: seen) rest

/-- Translation of `df.drop_duplicates("vesselid")` (source lines 253 and
281): keep the first row of every vesselid group, preserving frame order. -/
def dropDupVessel (l : List Event) : List Event := dropDupVesselAux [] l

/-- Translation of the persistence computation (source lines 253-254):
concatenate the deduplicated frames of the window and count, per vesselid,
how many rows carry it (`groupby("vesselid").size()`). -/
def appearanceCount (window : List (List Event)) (v : Nat) : Nat :=
  (((window.map dropDupVessel).flatten).filter (fun e => e.vesselid == v)).length

/-- Ordering of trend points by the `run_time` column, used by
`trend_df.sort_values("run_time")`. -/
def trendLe (a b : Nat × Nat) : Prop := a.1 ≤ b.1

instance : DecidableRel trendLe := fun a b => Nat.decLe a.1 b.1

instance : IsTotal (Nat × Nat) trendLe := ⟨fun a b => Nat.le_total a.1 b.1⟩

instance : IsTrans (Nat × Nat) trendLe := ⟨fun _ _ _ h₁ h₂ => Nat.le_trans h₁ h₂⟩

/-- Ordering of window elements (run time, raw snapshot) by run time. -/
def runLe (a b : Nat × List Event) : Prop := a.1 ≤ b.1

instance : DecidableRel runLe := fun a b => Nat.decLe a.1 b.1

instance : IsTotal (Nat × List Event) runLe := ⟨fun a b => Nat.le_total a.1 b.1⟩

instance : IsTrans (Nat × List Event) runLe := ⟨fun _ _ _ h₁ h₂ => Nat.le_trans h₁ h₂⟩

/-- Translation of the trend construction (source lines 278-294): one point
per selected run file, holding the run time parsed from the filename and the
deduplicated vessel count of that file, then `sort_values("run_time")`
(modelled, like every frame sort, as a stable sort). -/
def buildTrend (w : List (Nat × List Event)) : List (Nat × Nat) :=
  (w.map (fun p => (p.1, (dropDupVessel p.2).length))).insertionSort trendLe

/-- Translation of the previous-run selection (source lines 125-136): when
more than one run file exists and comparison is enabled, the previous state
is the reduction of the second-to-last run file and this is not a first run;
otherwise the previous state is the empty frame and the cycle counts as a
first run. -/
def previousAndFirstRun (store : List (List Event)) (comparePrev : Bool) :
    List Event × Bool :=
  if 1 < store.length ∧ comparePrev = true then
    (reduceSnapshot (store.getD (store.length - 2) []), false)
  else ([], true)

/-- Python string comparison on code points: strings are modelled as lists
of character code points and `strLt x y` decides `x < y` the way Python's
`sorted(...)` compares filenames. -/
def strLt : List Nat → List Nat → Bool
  | [], [] => false
  | [], _ :: _ => true
  | _ :: _, [] => false
  | x :: xs, y :: ys =>
    if x < y then true else if y < x then false else strLt xs ys

/-- Weak ordering derived from `strLt`; `sorted(...)` arranges the
filenames into ascending `strLe` order. -/
def strLe (x y : List Nat) : Prop := strLt y x = false

instance : DecidableRel strLe := fun x y =>
  inferInstanceAs (Decidable (strLt y x = false))

instance : IsTotal (List Nat) strLe := by
  constructor
  intro x y
  suffices h : ∀ x y : List Nat, strLt x y = false ∨ strLt y x = false by
    rcases h x y with h1 | h1
    · exact Or.inr h1
    · exact Or.inl h1
  intro x
  induction x with
  | nil =>
    intro y
    cases y with
    | nil => exact Or.inl rfl
    | cons b ys => exact Or.inr rfl
  | cons a xs ih =>
    intro y
    cases y with
    | nil => exact Or.inl rfl
    | cons b ys =>
      by_cases hab : a < b
      · right
        simp [strLt, hab, Nat.lt_asymm hab]
      · by_cases hba : b < a
        · left
          simp [strLt, hba, hab]
        · rcases ih ys with h1 | h1
          · left
            simp [strLt, hab, hba, h1]
          · right
            simp [strLt, hab, hba, h1]

instance : IsTrans (List Nat) strLe := by
  have key : ∀ x y z : List Nat, strLt y x = false → strLt z y = false →
      strLt z x = false := by
    intro x
    induction x with
    | nil =>
      intro y z h1 h2
      cases z with
      | nil => rfl
      | cons c zs => rfl
    | cons a xs ih =>
      intro y z h1 h2
      cases y with
      | nil => simp [strLt] at h1
      | cons b ys =>
        cases z with
        | nil => simp [strLt] at h2
        | cons c zs =>
          by_cases hba : b < a
          · simp [strLt, hba] at h1
          · by_cases hcb : c < b
            · simp [strLt, hcb] at h2
            · have hca : ¬ c < a := by omega
              by_cases hac : a < c
              · simp [strLt, hca, hac]
              · have hab : ¬ a < b := by omega
                have hbc : ¬ b < c := by omega
                simp [strLt, hba, hab] at h1
                simp [strLt, hcb, hbc] at h2
                simp [strLt, hca, hac]
                exact ih ys zs h1 h2
  exact ⟨fun x y z h1 h2 => key x y z h1 h2⟩

/-- Digits of `n` in base 10, zero-padded to exactly `w` positions, as
character code points (models the zero-padded `strftime` fields; 48 is the
code point of the zero digit). -/
def padNum : Nat → Nat → List Nat
  | 0, _ => []
  | w + 1, n => (48 + n / 10 ^ w % 10) :: padNum w (n % 10 ^ w)

/-- Save instant at second precision, the data `strftime` renders. -/
structure DateTime where
  year : Nat
  month : Nat
  day : Nat
  hour : Nat
  minute : Nat
  second : Nat
deriving DecidableEq

/-- Translation of `datetime.now().strftime("%Y%m%d_%H%M%S")` (source line
86): the fixed-width second-precision timestamp of a run filename, as code
points (95 is the underscore). -/
def timestampStr (t : DateTime) : List Nat :=
  padNum 4 t.year ++ padNum 2 t.month ++ padNum 2 t.day ++ [95]
    ++ padNum 2 t.hour ++ padNum 2 t.minute ++ padNum 2 t.second

/-- Translation of the filename construction `f"run_{timestamp_str}.csv"`
(source line 87), as code points (the four leading points spell "run_", the
four trailing ones ".csv"). -/
def runFilename (t : DateTime) : List Nat :=
  [114, 117, 110, 95] ++ timestampStr t ++ [46, 99, 115, 118]

/-- Field bounds under which the `strftime` fields are genuinely fixed
width: at most four year digits and two digits for every other component. -/
def ValidDT (t : DateTime) : Prop :=
  t.year < 10000 ∧ t.month < 100 ∧ t.day < 100 ∧ t.hour < 100
    ∧ t.minute < 100 ∧ t.second < 100

instance (t : DateTime) : Decidable (ValidDT t) :=
  inferInstanceAs (Decidable (t.year < 10000 ∧ t.month < 100 ∧ t.day < 100
    ∧ t.hour < 100 ∧ t.minute < 100 ∧ t.second < 100))

/-- Chronological key of a save instant: the six fields read as one number,
most significant first (the same order the filename embeds them in). -/
def chronoKey (t : DateTime) : Nat :=
  ((((t.year * 100 + t.month) * 100 + t.day) * 100 + t.hour) * 100
      + t.minute) * 100 + t.second

/-- Translation of `sorted(glob.glob(os.path.join(RUN_FOLDER, "run_*.csv")))`
(source line 117): the run filenames in ascending lexicographic order. -/
def listRuns (files : List (List Nat)) : List (List Nat) :=
  files.insertionSort strLe

/-! Properties of `lastWith`. -/

theorem lastWith_cons (p : Event → Bool) (e : Event) (rest : List Event) :
    lastWith p (e :: rest) =
      match lastWith p rest with
      | some m => some m
      | none => if p e then some e else none := rfl

theorem lastWith_mem {p : Event → Bool} {m : Event} :
    ∀ {l : List Event}, lastWith p l = some m → m ∈ l := by
  intro l
  induction l with
  | nil => intro h; exact Option.noConfusion h
  | cons e rest ih =>
    rw [lastWith_cons]
    cases h : lastWith p rest with
    | some m' =>
      intro hm
      cases hm
      exact List.mem_cons_of_mem _ (ih h)
    | none =>
      by_cases hp : p e
      · intro hm
        simp only [hp, if_true] at hm
        cases hm
        exact List.mem_cons_self _ _
      · intro hm
        simp only [hp, if_false] at hm
        exact Option.noConfusion hm

theorem lastWith_pred {p : Event → Bool} {m : Event} :
    ∀ {l : List Event}, lastWith p l = some m → p m = true := by
  intro l
  induction l with
  | nil => intro h; exact Option.noConfusion h
  | cons e rest ih =>
    rw [lastWith_cons]
    cases h : lastWith p rest with
    | some m' =>
      intro hm; cases hm; exact ih h
    | none =>
      by_cases hp : p e
      · intro hm
        simp only [hp, if_true] at hm
        cases hm
        exact hp
      · intro hm
        simp only [hp, if_false] at hm
        exact Option.noConfusion hm

theorem lastWith_eq_none_iff {p : Event → Bool} :
    ∀ {l : List Event}, lastWith p l = none ↔ ∀ e ∈ l, p e = false := by
  intro l
  induction l with
  | nil => simp [lastWith]
  | cons e rest ih =>
    rw [lastWith_cons]
    cases h : lastWith p rest with
    | some m' =>
      simp only []
      constructor
      · intro hc; exact Option.noConfusion hc
      · intro hall
        have : lastWith p rest = none :=
          ih.mpr fun x hx => hall x (List.mem_cons_of_mem _ hx)
        rw [this] at h
        exact Option.noConfusion h
    | none =>
      have hrest : ∀ x ∈ rest, p x = false := ih.mp h
      by_cases hp : p e
      · simp only [hp, if_true]
        constructor
        · intro hc; exact Option.noConfusion hc
        · intro hall
          have := hall e (List.mem_cons_self _ _)
          rw [hp] at this
          exact Bool.noConfusion this
      · simp only [hp, if_false]
        constructor
        · intro _ x hx
          rcases List.mem_cons.mp hx with rfl | hx'
          · exact Bool.eq_false_iff.mpr hp
          · exact hrest x hx'
        · intro _; rfl

theorem lastWith_isSome_of_mem {p : Event → Bool} {e : Event} {l : List Event}
    (he : e ∈ l) (hp : p e = true) : ∃ m, lastWith p l = some m := by
  cases h : lastWith p l with
  | some m => exact ⟨m, rfl⟩
  | none =>
    have := lastWith_eq_none_iff.mp h e he
    rw [hp] at this
    exact Bool.noConfusion this

/-! Properties of `keepLast` and of sorted permutations. -/

theorem keepLast_sublist : ∀ l : List Event, List.Sublist (keepLast l) l := by
  intro l
  induction l with
  | nil => exact List.Sublist.refl _
  | cons e rest ih =>
    simp only [keepLast]
    by_cases h : rest.any (fun x => x.vesselid == e.vesselid)
    · rw [if_pos h]
      exact ih.cons e
    · rw [if_neg h]
      exact ih.cons₂ e

theorem mem_ids_keepLast :
    ∀ (l : List Event) (v : Nat),
      v ∈ (keepLast l).map Event.vesselid ↔ v ∈ l.map Event.vesselid := by
  intro l
  induction l with
  | nil => intro v; exact Iff.rfl
  | cons e rest ih =>
    intro v
    simp only [keepLast]
    by_cases h : rest.any (fun x => x.vesselid == e.vesselid)
    · rw [if_pos h, List.map_cons]
      constructor
      · intro hv
        exact List.mem_cons_of_mem _ ((ih v).mp hv)
      · intro hv
        rcases List.mem_cons.mp hv with rfl | hv'
        · rcases List.any_eq_true.mp h with ⟨x, hx, hxe⟩
          have hxv : x.vesselid = e.vesselid := by simpa using hxe
          exact (ih _).mpr (List.mem_map.mpr ⟨x, hx, hxv⟩)
        · exact (ih v).mpr hv'
    · rw [if_neg h, List.map_cons, List.map_cons]
      simp only [List.mem_cons]
      exact or_congr Iff.rfl (ih v)

theorem ids_nodup_keepLast : ∀ l : List Event, ((keepLast l).map Event.vesselid).Nodup := by
  intro l
  induction l with
  | nil => exact List.nodup_nil
  | cons e rest ih =>
    simp only [keepLast]
    by_cases h : rest.any (fun x => x.vesselid == e.vesselid)
    · rw [if_pos h]
      exact ih
    · rw [if_neg h, List.map_cons]
      refine List.nodup_cons.mpr ⟨?_, ih⟩
      intro hmem
      have hmem' : e.vesselid ∈ rest.map Event.vesselid := (mem_ids_keepLast rest _).mp hmem
      rcases List.mem_map.mp hmem' with ⟨x, hx, hxe⟩
      exact h (List.any_eq_true.mpr ⟨x, hx, by simpa using hxe⟩)

theorem keepLast_lastWith (v : Nat) :
    ∀ l : List Event,
      lastWith (fun x => x.vesselid == v) (keepLast l) =
        lastWith (fun x => x.vesselid == v) l := by
  intro l
  induction l with
  | nil => rfl
  | cons e rest ih =>
    simp only [keepLast]
    by_cases h : rest.any (fun x => x.vesselid == e.vesselid)
    · rw [if_pos h, ih, lastWith_cons]
      by_cases hpe : e.vesselid == v
      · rcases List.any_eq_true.mp h with ⟨x, hx, hxe⟩
        have hxv : (x.vesselid == v) = true := by
          have h1 : x.vesselid = e.vesselid := by simpa using hxe
          have h2 : e.vesselid = v := by simpa using hpe
          simp [h1, h2]
        rcases lastWith_isSome_of_mem (p := fun x => x.vesselid == v) hx hxv with ⟨m, hm⟩
        rw [hm]
      · cases hr : lastWith (fun x => x.vesselid == v) rest with
        | some m => rfl
        | none => simp [hpe]
    · rw [if_neg h, lastWith_cons, lastWith_cons, ih]

theorem mem_ids_reduceSnapshot (s : List Event) (v : Nat) :
    v ∈ (reduceSnapshot s).map Event.vesselid ↔ v ∈ s.map Event.vesselid := by
  rw [reduceSnapshot, sortByTimestamp, mem_ids_keepLast]
  exact ((List.perm_insertionSort tsLe s).map Event.vesselid).mem_iff

theorem ids_nodup_reduceSnapshot (s : List Event) :
    ((reduceSnapshot s).map Event.vesselid).Nodup :=
  ids_nodup_keepLast _

/-- Last row satisfying `p` of a timestamp-sorted list: its timestamp
dominates every row of the list satisfying `p`. -/
theorem lastWith_sorted_ge {p : Event → Bool} :
    ∀ {l : List Event}, List.Sorted tsLe l → ∀ {m : Event},
      lastWith p l = some m → ∀ x ∈ l, p x = true → x.timestamp ≤ m.timestamp := by
  intro l
  induction l with
  | nil => intro _ m h; exact Option.noConfusion h
  | cons e rest ih =>
    intro hsort m
    rw [lastWith_cons]
    cases hr : lastWith p rest with
    | some m' =>
      intro hm x hx hpx
      have hmm : m = m' := (Option.some.inj hm).symm
      subst hmm
      rcases List.mem_cons.mp hx with rfl | hx'
      · exact (List.sorted_cons.mp hsort).1 m (lastWith_mem hr)
      · exact ih hsort.of_cons hr x hx' hpx
    | none =>
      by_cases hpe : p e
      · simp only [hpe, if_true]
        intro hm x hx hpx
        have hme : m = e := (Option.some.inj hm).symm
        subst hme
        rcases List.mem_cons.mp hx with rfl | hx'
        · exact Nat.le_refl _
        · have hfalse := lastWith_eq_none_iff.mp hr x hx'
          rw [hfalse] at hpx
          exact Bool.noConfusion hpx
      · simp only [hpe, if_false]
        intro hm
        exact Option.noConfusion hm

/-- C1 counterexample: the sort contract of `sort_values` (sorted
permutation, tie order unspecified) admits an execution in which, of two
events of vessel 1 tied at timestamp 5, the row kept by the reduction is the
FIRST one in original input order, while the claim as stated requires the
last one — so the last-seen-wins tie-break is not guaranteed by the code. -/
theorem c1_counterexample :
    IsSortByTimestamp
        [(⟨1, some "A", 5, none, none⟩ : Event), ⟨1, some "B", 5, none, none⟩]
        [(⟨1, some "B", 5, none, none⟩ : Event), ⟨1, some "A", 5, none, none⟩]
      ∧ lastWith (fun x => x.vesselid == 1)
          (keepLast [(⟨1, some "B", 5, none, none⟩ : Event), ⟨1, some "A", 5, none, none⟩])
          = some ⟨1, some "A", 5, none, none⟩
      ∧ lastWith (fun x => x.vesselid == 1 && x.timestamp == 5)
          [(⟨1, some "A", 5, none, none⟩ : Event), ⟨1, some "B", 5, none, none⟩]
          = some ⟨1, some "B", 5, none, none⟩
      ∧ (⟨1, some "A", 5, none, none⟩ : Event) ≠ ⟨1, some "B", 5, none, none⟩ := by
  decide

/-- C1 (amended): under the sort contract of `sort_values` — any
timestamp-nondecreasing permutation of the snapshot, the tie order among
equal timestamps being unspecified — the reduction keeps exactly one row per
distinct vesselid of the input; that row is one of the entity's events and
carries the maximum timestamp among them (which tied event wins is
unspecified); an empty snapshot reduces to the empty state.  The pipeline's
own sort output satisfies the contract. -/
theorem c1_reduce_latest_per_entity (s l : List Event)
    (h : IsSortByTimestamp s l) :
    IsSortByTimestamp s (sortByTimestamp s)
      ∧ (s = [] → keepLast l = [])
      ∧ ((keepLast l).map Event.vesselid).Nodup
      ∧ (∀ v : Nat, v ∈ (keepLast l).map Event.vesselid ↔ v ∈ s.map Event.vesselid)
      ∧ (∀ v : Nat, v ∈ s.map Event.vesselid →
          ∃ e, lastWith (fun x => x.vesselid == v) (keepLast l) = some e)
      ∧ (∀ (v : Nat) (e : Event),
          lastWith (fun x => x.vesselid == v) (keepLast l) = some e →
            e ∈ s ∧ e.vesselid = v
              ∧ ∀ x ∈ s, x.vesselid = v → x.timestamp ≤ e.timestamp) := by
  obtain ⟨hperm, hsort⟩ := h
  have hids : ∀ v : Nat, v ∈ l.map Event.vesselid ↔ v ∈ s.map Event.vesselid :=
    fun v => ((hperm.map Event.vesselid).mem_iff).symm
  refine ⟨⟨(List.perm_insertionSort tsLe s).symm, List.sorted_insertionSort tsLe s⟩,
    ?_, ids_nodup_keepLast l, ?_, ?_, ?_⟩
  · rintro rfl
    have hl : l = [] := hperm.symm.eq_nil
    rw [hl]
    rfl
  · intro v
    rw [mem_ids_keepLast]
    exact hids v
  · intro v hv
    have hv' : v ∈ (keepLast l).map Event.vesselid := by
      rw [mem_ids_keepLast]
      exact (hids v).mpr hv
    rcases List.mem_map.mp hv' with ⟨y, hy, hyv⟩
    exact lastWith_isSome_of_mem (p := fun x => x.vesselid == v) hy (by simp [hyv])
  · intro v e he
    rw [keepLast_lastWith] at he
    have hel : e ∈ l := lastWith_mem he
    have hes : e ∈ s := hperm.mem_iff.mpr hel
    have hev : e.vesselid = v := by simpa using lastWith_pred he
    refine ⟨hes, hev, ?_⟩
    intro x hx hxv
    exact lastWith_sorted_ge hsort he x (hperm.mem_iff.mp hx) (by simp [hxv])

/-- Witness for amended C1 at a concrete snapshot and one admissible sort
output of it: vessel 1 has two events tied at timestamp 5 and the kept row
is one of them, carrying the maximal timestamp. -/
theorem c1_reduce_latest_per_entity_witness :
    (⟨1, some "A", 5, none, none⟩ : Event) ∈
        [(⟨1, some "A", 5, none, none⟩ : Event), ⟨1, some "B", 5, none, none⟩,
          ⟨2, some "C", 3, none, none⟩]
      ∧ (⟨1, some "A", 5, none, none⟩ : Event).vesselid = 1
      ∧ (∀ x ∈ [(⟨1, some "A", 5, none, none⟩ : Event), ⟨1, some "B", 5, none, none⟩,
            ⟨2, some "C", 3, none, none⟩],
          x.vesselid = 1 → x.timestamp ≤ (⟨1, some "A", 5, none, none⟩ : Event).timestamp) :=
  (c1_reduce_latest_per_entity
      [(⟨1, some "A", 5, none, none⟩ : Event), ⟨1, some "B", 5, none, none⟩,
        ⟨2, some "C", 3, none, none⟩]
      [(⟨2, some "C", 3, none, none⟩ : Event), ⟨1, some "B", 5, none, none⟩,
        ⟨1, some "A", 5, none, none⟩]
      (by decide)).2.2.2.2.2 1 ⟨1, some "A", 5, none, none⟩ (by decide)

/-! Properties of `dropDupVessel`. -/

theorem mem_ids_dropDupVesselAux :
    ∀ (l : List Event) (seen : List Nat) (v : Nat),
      v ∈ (dropDupVesselAux seen l).map Event.vesselid ↔
        v ∉ seen ∧ v ∈ l.map Event.vesselid := by
  intro l
  induction l with
  | nil => intro seen v; simp [dropDupVesselAux]
  | cons e rest ih =>
    intro seen v
    simp only [dropDupVesselAux]
    by_cases h : e.vesselid ∈ seen
    · rw [if_pos h, ih seen v, List.map_cons, List.mem_cons]
      constructor
      · rintro ⟨hns, hmem⟩
        exact ⟨hns, Or.inr hmem⟩
      · rintro ⟨hns, rfl | hmem⟩
        · exact absurd h hns
        · exact ⟨hns, hmem⟩
    · rw [if_neg h]
      simp only [List.map_cons, List.mem_cons, ih (e.vesselid :: seen) v]
      constructor
      · rintro (rfl | ⟨hns, hmem⟩)
        · exact ⟨h, Or.inl rfl⟩
        · exact ⟨fun hv => hns (Or.inr hv), Or.inr hmem⟩
      · rintro ⟨hns, rfl | hmem⟩
        · exact Or.inl rfl
        · by_cases hve : v = e.vesselid
          · exact Or.inl hve
          · exact Or.inr ⟨fun hv => hv.elim hve hns, hmem⟩

theorem ids_nodup_dropDupVesselAux :
    ∀ (l : List Event) (seen : List Nat),
      ((dropDupVesselAux seen l).map Event.vesselid).Nodup := by
  intro l
  induction l with
  | nil => intro seen; exact List.nodup_nil
  | cons e rest ih =>
    intro seen
    simp only [dropDupVesselAux]
    by_cases h : e.vesselid ∈ seen
    · rw [if_pos h]
      exact ih seen
    · rw [if_neg h, List.map_cons]
      refine List.nodup_cons.mpr ⟨?_, ih _⟩
      intro hmem
      have hm := (mem_ids_dropDupVesselAux rest (e.vesselid :: seen) e.vesselid).mp hmem
      exact hm.1 (List.mem_cons_self _ _)

theorem mem_ids_dropDupVessel (l : List Event) (v : Nat) :
    v ∈ (dropDupVessel l).map Event.vesselid ↔ v ∈ l.map Event.vesselid := by
  rw [dropDupVessel, mem_ids_dropDupVesselAux]
  simp

theorem ids_nodup_dropDupVessel (l : List Event) :
    ((dropDupVessel l).map Event.vesselid).Nodup :=
  ids_nodup_dropDupVesselAux l []

theorem dropDupVessel_length_eq_card (l : List Event) :
    (dropDupVessel l).length = (vesselIds l).card := by
  have h1 : ((dropDupVessel l).map Event.vesselid).toFinset = vesselIds l := by
    apply Finset.ext
    intro a
    rw [List.mem_toFinset, vesselIds, List.mem_toFinset]
    exact mem_ids_dropDupVessel l a
  calc (dropDupVessel l).length
      = ((dropDupVessel l).map Event.vesselid).length := (List.length_map _ _).symm
    _ = ((dropDupVessel l).map Event.vesselid).toFinset.card :=
        (List.toFinset_card_of_nodup (ids_nodup_dropDupVessel l)).symm
    _ = (vesselIds l).card := by rw [h1]

theorem reduceSnapshot_length_eq_card (s : List Event) :
    (reduceSnapshot s).length = (vesselIds s).card := by
  have h1 : ((reduceSnapshot s).map Event.vesselid).toFinset = vesselIds s := by
    apply Finset.ext
    intro a
    rw [List.mem_toFinset, vesselIds, List.mem_toFinset]
    exact mem_ids_reduceSnapshot s a
  calc (reduceSnapshot s).length
      = ((reduceSnapshot s).map Event.vesselid).length := (List.length_map _ _).symm
    _ = ((reduceSnapshot s).map Event.vesselid).toFinset.card :=
        (List.toFinset_card_of_nodup (ids_nodup_reduceSnapshot s)).symm
    _ = (vesselIds s).card := by rw [h1]

/-- C10: deduplication on vesselid (the persistence and trend paths) and the
sort-then-take-last reduction (the diff path) retain the same set of
vesselids and the same number of rows, both agreeing with the key set and
size of the reduced state. -/
theorem c10_dedup_agrees_with_reduction (s : List Event) :
    (∀ v : Nat, v ∈ (dropDupVessel s).map Event.vesselid ↔
        v ∈ (reduceSnapshot s).map Event.vesselid)
      ∧ (dropDupVessel s).length = (reduceSnapshot s).length
      ∧ (dropDupVessel s).length = (vesselIds s).card
      ∧ (reduceSnapshot s).length = (vesselIds s).card := by
  refine ⟨?_, ?_, dropDupVessel_length_eq_card s, reduceSnapshot_length_eq_card s⟩
  · intro v
    rw [mem_ids_dropDupVessel, mem_ids_reduceSnapshot]
  · rw [dropDupVessel_length_eq_card, reduceSnapshot_length_eq_card]

/-! Persistence counting. -/

theorem countP_eq_ite_of_ids_nodup :
    ∀ {l : List Event}, (l.map Event.vesselid).Nodup → ∀ v : Nat,
      (l.filter (fun e => e.vesselid == v)).length =
        if v ∈ l.map Event.vesselid then 1 else 0 := by
  intro l
  induction l with
  | nil => intro _ v; simp
  | cons e rest ih =>
    intro hnd v
    rw [List.map_cons, List.nodup_cons] at hnd
    rw [List.filter_cons]
    by_cases hev : e.vesselid = v
    · subst hev
      have h0 : (rest.filter (fun x => x.vesselid == e.vesselid)).length = 0 := by
        rw [ih hnd.2 e.vesselid, if_neg hnd.1]
      simp [h0]
    · rw [if_neg (by simp [hev]), ih hnd.2 v]
      simp [List.mem_cons, Ne.symm hev]

theorem appearanceCount_cons (s : List Event) (w : List (List Event)) (v : Nat) :
    appearanceCount (s :: w) v =
      ((dropDupVessel s).filter (fun e => e.vesselid == v)).length
        + appearanceCount w v := by
  simp [appearanceCount, List.filter_append]

theorem appearanceCount_eq_countP :
    ∀ (w : List (List Event)) (v : Nat),
      appearanceCount w v = w.countP (fun s => decide (v ∈ s.map Event.vesselid)) := by
  intro w
  induction w with
  | nil => intro v; rfl
  | cons s w ih =>
    intro v
    rw [appearanceCount_cons, ih, List.countP_cons, Nat.add_comm]
    congr 1
    rw [countP_eq_ite_of_ids_nodup (ids_nodup_dropDupVessel s) v]
    have hmm := mem_ids_dropDupVessel s v
    simp only [List.mem_map] at hmm
    simp [hmm]

/-- C5: the persistence computation assigns to vessel `v` the number of
window states whose snapshot carries `v`; the count of a vessel appearing
anywhere in the window lies in `[1, W]`, and it is invariant under
permutations of the window. -/
theorem c5_persistence_counts (w : List (List Event)) (v : Nat) :
    appearanceCount w v
        = (w.filter (fun s => decide (v ∈ s.map Event.vesselid))).length
      ∧ ((∃ s ∈ w, v ∈ s.map Event.vesselid) → 1 ≤ appearanceCount w v)
      ∧ appearanceCount w v ≤ w.length
      ∧ (∀ w' : List (List Event), w.Perm w' → appearanceCount w v = appearanceCount w' v) := by
  have hc := appearanceCount_eq_countP w v
  refine ⟨?_, ?_, ?_, ?_⟩
  · rw [hc, List.countP_eq_length_filter]
  · rintro ⟨s, hs, hv⟩
    rw [hc]
    exact List.countP_pos_iff.mpr ⟨s, hs, by simpa using hv⟩
  · rw [hc]
    exact List.countP_le_length _
  · intro w' hperm
    rw [hc, appearanceCount_eq_countP, hperm.countP_eq]

/-- Witness for C5: a window of three runs where vessel 7 appears in the
first and third run but not the second; its count is 2, within bounds, and
unchanged by reordering the window. -/
theorem c5_persistence_counts_witness :
    1 ≤ appearanceCount
        [[(⟨7, none, 0, none, none⟩ : Event)], [⟨8, none, 0, none, none⟩],
          [⟨7, none, 1, none, none⟩]] 7
      ∧ appearanceCount
          [[(⟨7, none, 0, none, none⟩ : Event)], [⟨8, none, 0, none, none⟩],
            [⟨7, none, 1, none, none⟩]] 7
        = appearanceCount
            [[(⟨7, none, 1, none, none⟩ : Event)], [⟨8, none, 0, none, none⟩],
              [⟨7, none, 0, none, none⟩]] 7 :=
  ⟨(c5_persistence_counts
        [[(⟨7, none, 0, none, none⟩ : Event)], [⟨8, none, 0, none, none⟩],
          [⟨7, none, 1, none, none⟩]] 7).2.1
      ⟨[(⟨7, none, 0, none, none⟩ : Event)], by decide, by decide⟩,
    (c5_persistence_counts
        [[(⟨7, none, 0, none, none⟩ : Event)], [⟨8, none, 0, none, none⟩],
          [⟨7, none, 1, none, none⟩]] 7).2.2.2
      [[(⟨7, none, 1, none, none⟩ : Event)], [⟨8, none, 0, none, none⟩],
        [⟨7, none, 0, none, none⟩]] (by decide)⟩

/-- C2 counterexample: with a single current row whose region is null and an
empty previous state, the null region itself is a member of `newRegions`, so
the region sets used by the new/resolved computations do not exclude
absent/null region values. -/
theorem c2_counterexample :
    (none : Option String) ∈
      newRegions [(⟨1, none, 0, none, none⟩ : Event)] [] := by decide

/-- C2 amended: the region sets used by the new/resolved computations are
the raw column value sets with the null region included; every row's region
value, null or not, belongs to its state's region set and enters the two
set differences exactly like any other value. -/
theorem c2_null_regions_participate (cur prev : List Event) :
    (∀ r : Option String, r ∈ regionsOf cur ↔ ∃ e ∈ cur, e.eez_overall = r)
      ∧ (∀ e ∈ cur, e.eez_overall ∉ regionsOf prev →
          e.eez_overall ∈ newRegions cur prev)
      ∧ (∀ e ∈ prev, e.eez_overall ∉ regionsOf cur →
          e.eez_overall ∈ resolvedRegions cur prev) := by
  refine ⟨?_, ?_, ?_⟩
  · intro r
    simp [regionsOf]
  · intro e he hn
    rw [newRegions, Finset.mem_sdiff]
    refine ⟨?_, hn⟩
    rw [regionsOf, List.mem_toFinset]
    exact List.mem_map.mpr ⟨e, he, rfl⟩
  · intro e he hn
    rw [resolvedRegions, Finset.mem_sdiff]
    refine ⟨?_, hn⟩
    rw [regionsOf, List.mem_toFinset]
    exact List.mem_map.mpr ⟨e, he, rfl⟩

/-- Witness for the amended C2: a null region is in the region set of its
state, and a null region absent from the previous run shows up in
`newRegions` like any other value. -/
theorem c2_null_regions_participate_witness :
    (none : Option String) ∈ regionsOf [(⟨1, none, 0, none, none⟩ : Event)]
      ∧ (none : Option String) ∈
          newRegions [(⟨1, none, 0, none, none⟩ : Event)]
            [⟨2, some "A", 1, none, none⟩] :=
  ⟨((c2_null_regions_participate [(⟨1, none, 0, none, none⟩ : Event)] []).1 none).mpr
      ⟨⟨1, none, 0, none, none⟩, by decide, rfl⟩,
    (c2_null_regions_participate [(⟨1, none, 0, none, none⟩ : Event)]
        [⟨2, some "A", 1, none, none⟩]).2.1 ⟨1, none, 0, none, none⟩
      (by decide) (by decide)⟩

/-- C3: on a first run no alert whatsoever is emitted and no new-vessel
anomaly table is surfaced (a baseline notice replaces it), while the
new-vessel set is still the plain set difference, computed independently of
the flag. -/
theorem c3_first_run_suppresses_alerts (cur prev : List Event) :
    smartAlerts true cur prev = []
      ∧ showNewVessels true cur prev = none
      ∧ newVessels cur prev = vesselIds cur \ vesselIds prev :=
  ⟨rfl, rfl, rfl⟩

/-- C4: stability is the share of previous-run regions still present, lies
in [0, 100], is 100 whenever the previous region set is empty (no division
error), is 100 on identical non-empty states, and is 100 against the empty
previous state. -/
theorem c4_stability_properties (cur prev : List Event) :
    0 ≤ stability cur prev
      ∧ stability cur prev ≤ 100
      ∧ (regionsOf prev ≠ ∅ → stability cur prev
          = ((regionsOf cur ∩ regionsOf prev).card : ℚ)
              / ((regionsOf prev).card : ℚ) * 100)
      ∧ (regionsOf prev = ∅ → stability cur prev = 100)
      ∧ (cur ≠ [] → stability cur cur = 100)
      ∧ stability cur [] = 100 := by
  have hbounds : 0 ≤ stability cur prev ∧ stability cur prev ≤ 100 := by
    by_cases hp : regionsOf prev = ∅
    · rw [stability, if_neg (not_not_intro hp)]
      norm_num
    · rw [stability, if_pos hp]
      have hpos : (0 : ℚ) < ((regionsOf prev).card : ℚ) := by
        have := Finset.card_pos.mpr (Finset.nonempty_iff_ne_empty.mpr hp)
        exact_mod_cast this
      have hle : ((regionsOf cur ∩ regionsOf prev).card : ℚ)
          ≤ ((regionsOf prev).card : ℚ) := by
        exact_mod_cast Finset.card_le_card Finset.inter_subset_right
      constructor
      · positivity
      · have h1 : ((regionsOf cur ∩ regionsOf prev).card : ℚ)
            / ((regionsOf prev).card : ℚ) ≤ 1 := (div_le_one hpos).mpr hle
        nlinarith [h1]
  refine ⟨hbounds.1, hbounds.2, ?_, ?_, ?_, ?_⟩
  · intro hp
    rw [stability, if_pos hp]
  · intro hp
    rw [stability, if_neg (not_not_intro hp)]
  · intro hc
    have hne : regionsOf cur ≠ ∅ := by
      cases cur with
      | nil => exact absurd rfl hc
      | cons e rest =>
        intro hempty
        have hm : e.eez_overall ∈ regionsOf (e :: rest) := by
          simp [regionsOf]
        rw [hempty] at hm
        exact absurd hm (Finset.not_mem_empty _)
    have hpos : (0 : ℚ) < ((regionsOf cur).card : ℚ) := by
      have := Finset.card_pos.mpr (Finset.nonempty_iff_ne_empty.mpr hne)
      exact_mod_cast this
    rw [stability, if_pos hne, Finset.inter_self, div_self (ne_of_gt hpos), one_mul]
  · simp [stability, regionsOf]

/-- Witness for C4: stability of a non-empty state against itself is 100,
and stability against the empty previous state is 100. -/
theorem c4_stability_properties_witness :
    stability [(⟨1, some "A", 0, none, none⟩ : Event)]
        [(⟨1, some "A", 0, none, none⟩ : Event)] = 100
      ∧ stability [(⟨1, some "A", 0, none, none⟩ : Event)] [] = 100 :=
  ⟨(c4_stability_properties [(⟨1, some "A", 0, none, none⟩ : Event)]
      [(⟨1, some "A", 0, none, none⟩ : Event)]).2.2.2.2.1 (by decide),
    (c4_stability_properties [(⟨1, some "A", 0, none, none⟩ : Event)] []).2.2.2.2.2⟩

theorem increase_gt_implies_growth {cur prev : List Event}
    (hp : 0 < (vesselIds prev).card) (h10 : 10 < increasePct cur prev) :
    (vesselIds prev).card < (vesselIds cur).card := by
  by_contra hle
  push_neg at hle
  have hp' : (0 : ℚ) < ((vesselIds prev).card : ℚ) := by exact_mod_cast hp
  have hle' : ((vesselIds cur).card : ℚ) ≤ ((vesselIds prev).card : ℚ) := by
    exact_mod_cast hle
  rw [increasePct, div_mul_eq_mul_div, lt_div_iff₀ hp'] at h10
  nlinarith

/-- C6: outside a first run, a surge alert is emitted exactly when the
previous vessel count is positive and the percentage growth of the distinct
vessel count exceeds 10 (the additional grew-in-size guard of the source is
implied by those two conditions); on the spec's worked example (previous
vessels 1, 2, 3 and current vessels 1, 2, 4, 5) the growth is 100/3 percent
and the alert is emitted. -/
theorem c6_surge_condition (cur prev : List Event) :
    ((∃ q : ℚ, Alert.vesselSurge q ∈ smartAlerts false cur prev)
        ↔ 0 < (vesselIds prev).card ∧ 10 < increasePct cur prev)
      ∧ increasePct
          [(⟨1, some "A", 0, none, none⟩ : Event), ⟨2, some "A", 0, none, none⟩,
            ⟨4, some "B", 0, none, none⟩, ⟨5, some "B", 0, none, none⟩]
          [(⟨1, some "A", 0, none, none⟩ : Event), ⟨2, some "A", 0, none, none⟩,
            ⟨3, some "A", 0, none, none⟩] = 100 / 3
      ∧ Alert.vesselSurge (100 / 3) ∈
          smartAlerts false
            [(⟨1, some "A", 0, none, none⟩ : Event), ⟨2, some "A", 0, none, none⟩,
              ⟨4, some "B", 0, none, none⟩, ⟨5, some "B", 0, none, none⟩]
            [(⟨1, some "A", 0, none, none⟩ : Event), ⟨2, some "A", 0, none, none⟩,
              ⟨3, some "A", 0, none, none⟩] := by
  have h4 : (vesselIds
      [(⟨1, some "A", 0, none, none⟩ : Event), ⟨2, some "A", 0, none, none⟩,
        ⟨4, some "B", 0, none, none⟩, ⟨5, some "B", 0, none, none⟩]).card = 4 := by decide
  have h3 : (vesselIds
      [(⟨1, some "A", 0, none, none⟩ : Event), ⟨2, some "A", 0, none, none⟩,
        ⟨3, some "A", 0, none, none⟩]).card = 3 := by decide
  have hpct : increasePct
      [(⟨1, some "A", 0, none, none⟩ : Event), ⟨2, some "A", 0, none, none⟩,
        ⟨4, some "B", 0, none, none⟩, ⟨5, some "B", 0, none, none⟩]
      [(⟨1, some "A", 0, none, none⟩ : Event), ⟨2, some "A", 0, none, none⟩,
        ⟨3, some "A", 0, none, none⟩] = 100 / 3 := by
    rw [increasePct, h4, h3]
    norm_num
  refine ⟨⟨?_, ?_⟩, hpct, ?_⟩
  · rintro ⟨q, hq⟩
    rw [smartAlerts, if_neg (by simp)] at hq
    by_cases hcond : vesselIds prev ≠ ∅ ∧ (vesselIds prev).card < (vesselIds cur).card
        ∧ 10 < increasePct cur prev
    · exact ⟨Finset.card_pos.mpr (Finset.nonempty_iff_ne_empty.mpr hcond.1), hcond.2.2⟩
    · exfalso
      rw [if_neg hcond] at hq
      split_ifs at hq <;> simp at hq
  · rintro ⟨hp, h10⟩
    have hlt := increase_gt_implies_growth hp h10
    have hne : vesselIds prev ≠ ∅ :=
      Finset.nonempty_iff_ne_empty.mp (Finset.card_pos.mp hp)
    have hcond : vesselIds prev ≠ ∅ ∧ (vesselIds prev).card < (vesselIds cur).card
        ∧ 10 < increasePct cur prev := ⟨hne, hlt, h10⟩
    refine ⟨increasePct cur prev, ?_⟩
    rw [smartAlerts, if_neg (by simp), if_pos hcond]
    simp
  · have hcond : vesselIds
        [(⟨1, some "A", 0, none, none⟩ : Event), ⟨2, some "A", 0, none, none⟩,
          ⟨3, some "A", 0, none, none⟩] ≠ ∅
        ∧ (vesselIds [(⟨1, some "A", 0, none, none⟩ : Event),
            ⟨2, some "A", 0, none, none⟩, ⟨3, some "A", 0, none, none⟩]).card
          < (vesselIds [(⟨1, some "A", 0, none, none⟩ : Event),
              ⟨2, some "A", 0, none, none⟩, ⟨4, some "B", 0, none, none⟩,
              ⟨5, some "B", 0, none, none⟩]).card
        ∧ 10 < increasePct
            [(⟨1, some "A", 0, none, none⟩ : Event), ⟨2, some "A", 0, none, none⟩,
              ⟨4, some "B", 0, none, none⟩, ⟨5, some "B", 0, none, none⟩]
            [(⟨1, some "A", 0, none, none⟩ : Event), ⟨2, some "A", 0, none, none⟩,
              ⟨3, some "A", 0, none, none⟩] :=
      ⟨by decide, by decide, by rw [hpct]; norm_num⟩
    rw [smartAlerts, if_neg (by simp), if_pos hcond, hpct]
    simp

/-- C9: when comparison with the previous run is disabled, or at most one
run file exists, the previous state is the empty frame and the cycle is a
first run, so the alerts and the stability metric are suppressed even if
run files exist on disk. -/
theorem c9_first_run_fallback (store : List (List Event)) (comparePrev : Bool)
    (cur : List Event) (h : comparePrev = false ∨ store.length ≤ 1) :
    previousAndFirstRun store comparePrev = ([], true)
      ∧ smartAlerts (previousAndFirstRun store comparePrev).2 cur
          (previousAndFirstRun store comparePrev).1 = []
      ∧ stabilityDisplay (previousAndFirstRun store comparePrev).2 cur
          (previousAndFirstRun store comparePrev).1 = none := by
  have hcond : ¬ (1 < store.length ∧ comparePrev = true) := by
    rcases h with h | h
    · rintro ⟨-, hc⟩
      rw [h] at hc
      exact Bool.noConfusion hc
    · rintro ⟨hl, -⟩
      omega
  have hpf : previousAndFirstRun store comparePrev = ([], true) := by
    rw [previousAndFirstRun, if_neg hcond]
  refine ⟨hpf, ?_, ?_⟩
  · rw [hpf]
    exact rfl
  · rw [hpf]
    exact rfl

/-- Witness for C9: two run files exist on disk but comparison is toggled
off; the previous state is empty, the cycle counts as a first run, and both
the alerts and the stability metric are suppressed. -/
theorem c9_first_run_fallback_witness :
    previousAndFirstRun
        [[(⟨1, none, 0, none, none⟩ : Event)], [⟨2, none, 1, none, none⟩]] false
      = ([], true)
      ∧ smartAlerts (previousAndFirstRun
            [[(⟨1, none, 0, none, none⟩ : Event)], [⟨2, none, 1, none, none⟩]]
            false).2 [⟨3, none, 2, none, none⟩]
          (previousAndFirstRun
            [[(⟨1, none, 0, none, none⟩ : Event)], [⟨2, none, 1, none, none⟩]]
            false).1 = []
      ∧ stabilityDisplay (previousAndFirstRun
            [[(⟨1, none, 0, none, none⟩ : Event)], [⟨2, none, 1, none, none⟩]]
            false).2 [⟨3, none, 2, none, none⟩]
          (previousAndFirstRun
            [[(⟨1, none, 0, none, none⟩ : Event)], [⟨2, none, 1, none, none⟩]]
            false).1 = none :=
  c9_first_run_fallback _ false _ (Or.inl rfl)

/-- C7: the trend series has one point per window element, each point
carrying the size of that element's reduced state, the series is sorted
ascending by run time whatever the input order, and building from a
pre-sorted window yields the same series. -/
theorem c7_trend_sorted_and_idempotent (w : List (Nat × List Event)) :
    (buildTrend w).length = w.length
      ∧ (buildTrend w).Perm (w.map (fun p => (p.1, (reduceSnapshot p.2).length)))
      ∧ List.Sorted trendLe (buildTrend w)
      ∧ buildTrend (w.insertionSort runLe) = buildTrend w := by
  have hfun : (fun p : Nat × List Event => (p.1, (dropDupVessel p.2).length))
      = fun p : Nat × List Event => (p.1, (reduceSnapshot p.2).length) := by
    funext p
    rw [dropDupVessel_length_eq_card, reduceSnapshot_length_eq_card]
  refine ⟨?_, ?_, ?_, ?_⟩
  · simp only [buildTrend]
    rw [List.length_insertionSort, List.length_map]
  · simp only [buildTrend]
    rw [hfun]
    exact List.perm_insertionSort trendLe _
  · exact List.sorted_insertionSort trendLe _
  · simp only [buildTrend]
    rw [List.map_insertionSort runLe trendLe
      (fun p : Nat × List Event => (p.1, (dropDupVessel p.2).length)) w
      (fun a _ b _ => Iff.rfl)]
    exact List.Sorted.insertionSort_eq (List.sorted_insertionSort trendLe _)

/-! Lexicographic comparison of code point lists and zero-padded numerals. -/

theorem strLt_irrefl : ∀ x : List Nat, strLt x x = false := by
  intro x
  induction x with
  | nil => rfl
  | cons a xs ih => simp [strLt, ih]

theorem strLt_append_left :
    ∀ (x z₁ z₂ : List Nat), strLt (x ++ z₁) (x ++ z₂) = strLt z₁ z₂ := by
  intro x z₁ z₂
  induction x with
  | nil => rfl
  | cons a xs ih => simp [strLt, ih]

theorem strLt_append_iff :
    ∀ (x y z₁ z₂ : List Nat), x.length = y.length →
      (strLt (x ++ z₁) (y ++ z₂) = true ↔
        strLt x y = true ∨ (x = y ∧ strLt z₁ z₂ = true)) := by
  intro x
  induction x with
  | nil =>
    intro y z₁ z₂ hlen
    cases y with
    | nil => simp [strLt]
    | cons b ys => simp at hlen
  | cons a xs ih =>
    intro y z₁ z₂ hlen
    cases y with
    | nil => simp at hlen
    | cons b ys =>
      simp only [List.length_cons, Nat.add_right_cancel_iff] at hlen
      by_cases hab : a < b
      · simp [strLt, hab]
      · by_cases hba : b < a
        · simp [strLt, hab, hba, Ne.symm (Nat.ne_of_lt hba)]
        · have hab' : a = b := by omega
          subst hab'
          simp [strLt, ih ys z₁ z₂ hlen]

theorem padNum_length : ∀ w n : Nat, (padNum w n).length = w := by
  intro w
  induction w with
  | zero => intro n; rfl
  | succ w ih => intro n; simp [padNum, ih]

theorem block_lt_iff {q da ra db rb : Nat} (hra : ra < q) (hrb : rb < q) :
    da * q + ra < db * q + rb ↔ da < db ∨ (da = db ∧ ra < rb) := by
  constructor
  · intro h
    rcases Nat.lt_trichotomy da db with h1 | h1 | h1
    · exact Or.inl h1
    · subst h1
      exact Or.inr ⟨rfl, (Nat.add_lt_add_iff_left).mp h⟩
    · exfalso
      have e3 : db * q + q ≤ da * q := by
        have h2 : db + 1 ≤ da := h1
        calc db * q + q = (db + 1) * q := by ring
          _ ≤ da * q := Nat.mul_le_mul_right q h2
      have hcontra : db * q + rb < da * q + ra :=
        lt_of_lt_of_le (Nat.add_lt_add_left hrb _)
          (le_trans e3 (Nat.le_add_right _ _))
      exact absurd hcontra (Nat.lt_asymm h)
  · rintro (h1 | ⟨rfl, h2⟩)
    · have e3 : da * q + q ≤ db * q := by
        have h2 : da + 1 ≤ db := h1
        calc da * q + q = (da + 1) * q := by ring
          _ ≤ db * q := Nat.mul_le_mul_right q h2
      calc da * q + ra < da * q + q := Nat.add_lt_add_left hra _
        _ ≤ db * q := e3
        _ ≤ db * q + rb := Nat.le_add_right _ _
    · exact Nat.add_lt_add_left h2 _

theorem block_eq_iff {q da ra db rb : Nat} (hra : ra < q) (hrb : rb < q) :
    da * q + ra = db * q + rb ↔ da = db ∧ ra = rb := by
  constructor
  · intro h
    rcases Nat.lt_trichotomy da db with h1 | h1 | h1
    · exfalso
      have hlt := (block_lt_iff hra hrb).mpr (Or.inl h1)
      rw [h] at hlt
      exact Nat.lt_irrefl _ hlt
    · subst h1
      exact ⟨rfl, Nat.add_left_cancel h⟩
    · exfalso
      have hlt := (block_lt_iff hrb hra).mpr (Or.inl h1)
      rw [h] at hlt
      exact Nat.lt_irrefl _ hlt
  · rintro ⟨rfl, rfl⟩
    rfl

theorem padNum_lt_iff :
    ∀ (w a b : Nat), a < 10 ^ w → b < 10 ^ w →
      (strLt (padNum w a) (padNum w b) = true ↔ a < b) := by
  intro w
  induction w with
  | zero =>
    intro a b ha hb
    simp only [pow_zero] at ha hb
    exact iff_of_false (by simp [padNum, strLt]) (by omega)
  | succ w ih =>
    intro a b ha hb
    have hq : 0 < 10 ^ w := Nat.pow_pos (by norm_num)
    have hda : a / 10 ^ w < 10 := by
      rw [Nat.div_lt_iff_lt_mul hq, Nat.mul_comm, ← pow_succ]
      exact ha
    have hdb : b / 10 ^ w < 10 := by
      rw [Nat.div_lt_iff_lt_mul hq, Nat.mul_comm, ← pow_succ]
      exact hb
    have hma : a % 10 ^ w < 10 ^ w := Nat.mod_lt _ hq
    have hmb : b % 10 ^ w < 10 ^ w := Nat.mod_lt _ hq
    simp only [padNum]
    rw [Nat.mod_eq_of_lt hda, Nat.mod_eq_of_lt hdb]
    simp only [strLt]
    by_cases h1 : a / 10 ^ w < b / 10 ^ w
    · rw [if_pos (Nat.add_lt_add_left h1 48)]
      have hab : a < b := by
        rw [← Nat.div_add_mod' a (10 ^ w), ← Nat.div_add_mod' b (10 ^ w)]
        exact (block_lt_iff hma hmb).mpr (Or.inl h1)
      simp [hab]
    · by_cases h2 : b / 10 ^ w < a / 10 ^ w
      · rw [if_neg (fun hc => h1 (Nat.lt_of_add_lt_add_left hc)),
          if_pos (Nat.add_lt_add_left h2 48)]
        have hnab : ¬ a < b := by
          intro hab
          rw [← Nat.div_add_mod' a (10 ^ w), ← Nat.div_add_mod' b (10 ^ w)] at hab
          rcases (block_lt_iff hma hmb).mp hab with h3 | ⟨h3, -⟩
          · exact h1 h3
          · rw [h3] at h2
            exact Nat.lt_irrefl _ h2
        simp [hnab]
      · have heq : a / 10 ^ w = b / 10 ^ w :=
          Nat.le_antisymm (Nat.le_of_not_lt h2) (Nat.le_of_not_lt h1)
        rw [if_neg (fun hc => h1 (Nat.lt_of_add_lt_add_left hc)),
          if_neg (fun hc => h2 (Nat.lt_of_add_lt_add_left hc)),
          ih (a % 10 ^ w) (b % 10 ^ w) hma hmb]
        constructor
        · intro h
          rw [← Nat.div_add_mod' a (10 ^ w), ← Nat.div_add_mod' b (10 ^ w)]
          exact (block_lt_iff hma hmb).mpr (Or.inr ⟨heq, h⟩)
        · intro h
          rw [← Nat.div_add_mod' a (10 ^ w), ← Nat.div_add_mod' b (10 ^ w)] at h
          rcases (block_lt_iff hma hmb).mp h with h3 | ⟨-, h3⟩
          · exact absurd h3 h1
          · exact h3

theorem padNum_inj :
    ∀ (w a b : Nat), a < 10 ^ w → b < 10 ^ w →
      (padNum w a = padNum w b ↔ a = b) := by
  intro w
  induction w with
  | zero =>
    intro a b ha hb
    simp only [
      pow_zero] at ha hb
    constructor
    · intro _
      omega
    · intro _
      rfl
  | succ w ih =>
    intro a b ha hb
    have hq : 0 < 10 ^ w := Nat.pow_pos (by norm_num)
    have hda : a / 10 ^ w < 10 := by
      rw [Nat.div_lt_iff_lt_mul hq, Nat.mul_comm, ← pow_succ]
      exact ha
    have hdb : b / 10 ^ w < 10 := by
      rw [Nat.div_lt_iff_lt_mul hq, Nat.mul_comm, ← pow_succ]
      exact hb
    have hma : a % 10 ^ w < 10 ^ w := Nat.mod_lt _ hq
    have hmb : b % 10 ^ w < 10 ^ w := Nat.mod_lt _ hq
    simp only [padNum]
    rw [Nat.mod_eq_of_lt hda, Nat.mod_eq_of_lt hdb]
    simp only [List.cons.injEq]
    rw [ih (a % 10 ^ w) (b % 10 ^ w) hma hmb]
    constructor
    · rintro ⟨h1, h2⟩
      have hd : a / 10 ^ w = b / 10 ^ w := Nat.add_left_cancel h1
      rw [← Nat.div_add_mod' a (10 ^ w), ← Nat.div_add_mod' b (10 ^ w), hd, h2]
    · rintro rfl
      exact ⟨rfl, rfl⟩

set_option maxHeartbeats 2000000 in
/-- Lexicographic comparison of two run filenames built from valid save
instants agrees with the chronological order of the instants. -/
theorem runFilename_lt_iff {t₁ t₂ : DateTime} (h₁ : ValidDT t₁) (h₂ : ValidDT t₂) :
    (strLt (runFilename t₁) (runFilename t₂) = true ↔ chronoKey t₁ < chronoKey t₂) := by
  obtain ⟨hy₁, hmo₁, hd₁, hh₁, hmi₁, hs₁⟩ := h₁
  obtain ⟨hy₂, hmo₂, hd₂, hh₂, hmi₂, hs₂⟩ := h₂
  simp only [runFilename, timestampStr, List.append_assoc]
  rw [strLt_append_left]
  rw [strLt_append_iff _ _ _ _ (by rw [padNum_length, padNum_length]),
    padNum_lt_iff 4 _ _ hy₁ hy₂, padNum_inj 4 _ _ hy₁ hy₂]
  rw [strLt_append_iff _ _ _ _ (by rw [padNum_length, padNum_length]),
    padNum_lt_iff 2 _ _ hmo₁ hmo₂, padNum_inj 2 _ _ hmo₁ hmo₂]
  rw [strLt_append_iff _ _ _ _ (by rw [padNum_length, padNum_length]),
    padNum_lt_iff 2 _ _ hd₁ hd₂, padNum_inj 2 _ _ hd₁ hd₂]
  rw [strLt_append_left]
  rw [strLt_append_iff _ _ _ _ (by rw [padNum_length, padNum_length]),
    padNum_lt_iff 2 _ _ hh₁ hh₂, padNum_inj 2 _ _ hh₁ hh₂]
  rw [strLt_append_iff _ _ _ _ (by rw [padNum_length, padNum_length]),
    padNum_lt_iff 2 _ _ hmi₁ hmi₂, padNum_inj 2 _ _ hmi₁ hmi₂]
  rw [strLt_append_iff _ _ _ _ (by rw [padNum_length, padNum_length]),
    padNum_lt_iff 2 _ _ hs₁ hs₂, padNum_inj 2 _ _ hs₁ hs₂]
  rw [strLt_irrefl]
  simp only [chronoKey]
  rw [block_lt_iff (show t₁.second < 100 from hs₁) (show t₂.second < 100 from hs₂)]
  rw [block_lt_iff (show t₁.minute < 100 from hmi₁) (show t₂.minute < 100 from hmi₂),
    block_eq_iff (show t₁.minute < 100 from hmi₁) (show t₂.minute < 100 from hmi₂)]
  rw [block_lt_iff (show t₁.hour < 100 from hh₁) (show t₂.hour < 100 from hh₂),
    block_eq_iff (show t₁.hour < 100 from hh₁) (show t₂.hour < 100 from hh₂)]
  rw [block_lt_iff (show t₁.day < 100 from hd₁) (show t₂.day < 100 from hd₂),
    block_eq_iff (show t₁.day < 100 from hd₁) (show t₂.day < 100 from hd₂)]
  rw [block_lt_iff (show t₁.month < 100 from hmo₁) (show t₂.month < 100 from hmo₂),
    block_eq_iff (show t₁.month < 100 from hmo₁) (show t₂.month < 100 from hmo₂)]
  tauto

/-- Weak-order version: the `sorted(...)` comparison on two valid filenames
agrees with chronological order of the save instants. -/
theorem runFilename_le_iff {t₁ t₂ : DateTime} (h₁ : ValidDT t₁) (h₂ : ValidDT t₂) :
    (strLe (runFilename t₁) (runFilename t₂) ↔ chronoKey t₁ ≤ chronoKey t₂) := by
  rw [strLe]
  constructor
  · intro h
    by_contra hlt
    push_neg at hlt
    have hb := (runFilename_lt_iff h₂ h₁).mpr hlt
    rw [hb] at h
    exact Bool.noConfusion h
  · intro h
    cases hb : strLt (runFilename t₂) (runFilename t₁) with
    | false => rfl
    | true =>
      have := (runFilename_lt_iff h₂ h₁).mp hb
      omega

theorem runFilename_length (t : DateTime) : (runFilename t).length = 23 := by
  simp [runFilename, timestampStr, padNum_length]

theorem sorted_take_drop {l : List (List Nat)} (h : List.Sorted strLe l) (k : Nat) :
    ∀ x ∈ l.take k, ∀ y ∈ l.drop k, strLe x y := by
  have h2 : List.Pairwise strLe (l.take k ++ l.drop k) := by
    rw [List.take_append_drop]
    exact h
  exact (List.pairwise_append.mp h2).2.2

/-- C8: run filenames are fixed width (23 code points) with the save
timestamp embedded most-significant-field first, so lexicographic filename
order agrees with chronological order; listing runs sorts every persisted
filename into ascending order (a permutation of the input), the lexicographic
tail dominates everything before it (latest-N selection), and an empty
directory lists as the empty sequence. -/
theorem c8_filenames_sort_chronologically (ts : List DateTime) (t₁ t₂ : DateTime)
    (h₁ : ValidDT t₁) (h₂ : ValidDT t₂) :
    (runFilename t₁).length = 23
      ∧ (strLt (runFilename t₁) (runFilename t₂) = true ↔ chronoKey t₁ < chronoKey t₂)
      ∧ (strLe (runFilename t₁) (runFilename t₂) ↔ chronoKey t₁ ≤ chronoKey t₂)
      ∧ listRuns [] = []
      ∧ (listRuns (ts.map runFilename)).Perm (ts.map runFilename)
      ∧ List.Sorted strLe (listRuns (ts.map runFilename))
      ∧ (∀ k : Nat, ∀ x ∈ (listRuns (ts.map runFilename)).take k,
          ∀ y ∈ (listRuns (ts.map runFilename)).drop k, strLe x y) := by
  refine ⟨runFilename_length t₁, runFilename_lt_iff h₁ h₂, runFilename_le_iff h₁ h₂,
    rfl, List.perm_insertionSort strLe _, List.sorted_insertionSort strLe _, ?_⟩
  intro k
  exact sorted_take_drop (List.sorted_insertionSort strLe _) k

/-- Witness for C8: two save instants one second apart, in year 2024; the
earlier one's filename is lexicographically smaller. -/
theorem c8_filenames_sort_chronologically_witness :
    strLt (runFilename ⟨2024, 1, 2, 3, 4, 5⟩) (runFilename ⟨2024, 1, 2, 3, 4, 6⟩) = true :=
  ((c8_filenames_sort_chronologically [] ⟨2024, 1, 2, 3, 4, 5⟩ ⟨2024, 1, 2, 3, 4, 6⟩
      (by decide) (by decide)).2.1).mpr (by decide)
